import Mathlib

/-!
Verification development for the `no-google` domain-blocklist repository.

The repository consists of `convert.py` (the blocklist parsing and
multi-format emission pipeline), `scripts/tests.py` (strict CI-style
duplicate/forbidden-pattern checks), `scripts/dnscheck.py` (NS-record
liveness filter that rewrites the source file), and
`scripts/domain-check-api.py` (WHOIS registration checker with a single
deferred retry pass).

Each Python function used by the claims is embedded shallowly below:
files are lists of line strings, the ordered dictionary of
`DomainBlocklistConverter.data` is an association list with unique keys
in insertion order, and external collaborators (DNS resolver, WHOIS
service) are explicit oracle parameters.
-/

namespace PyStr

/-- Characters stripped by Python's `str.strip()` (ASCII whitespace model). -/
def pyIsSpace (c : Char) : Bool :=
  c = ' ' || c = '\t' || c = '\n' || c = '\r' || c = '\x0b' || c = '\x0c'

/-- List-level model of Python `str.strip()`. -/
def pyStripList (cs : List Char) : List Char :=
  ((cs.dropWhile pyIsSpace).reverse.dropWhile pyIsSpace).reverse

/-- Model of Python `str.strip()` on strings. -/
def pyStrip (s : String) : String :=
  String.mk (pyStripList s.toList)

/-- Model of Python `str.lstrip("# ")`: drop leading characters from the set
\x7b '#', ' ' \x7d. -/
def pyLstripHashSpace (s : String) : String :=
  String.mk (s.toList.dropWhile (fun c => c = '#' || c = ' '))

/-- Model of Python `str.lower()` (ASCII case folding, as used on the
repository's ASCII category names). -/
def pyLower (s : String) : String :=
  String.mk (s.toList.map Char.toLower)

/-- Model of Python `str.replace(" ", "")`: remove every space character. -/
def pyRemoveSpaces (s : String) : String :=
  String.mk (s.toList.filter (fun c => c ≠ ' '))

/-- Model of Python `str.startswith(c)` for a single-character prefix:
the first character of the string is `c`. -/
def startsWithChar (c : Char) (s : String) : Bool :=
  match s.toList with
  | x :: _ => x = c
  | [] => false

end PyStr

namespace Convert

open PyStr

/-- Input file name constant of `DomainBlocklistConverter`. -/
def INPUT_FILE : String := "pihole-google.txt"

/-- Pi-hole output file name constant. -/
def PIHOLE_FILE : String := "google-domains"

/-- Unbound output file name constant. -/
def UNBOUND_FILE : String := "pihole-google-unbound.conf"

/-- AdGuard output file name constant. -/
def ADGUARD_FILE : String := "pihole-google-adguard.txt"

/-- AdGuard important output file name constant. -/
def ADGUARD_IMPORTANT_FILE : String := "pihole-google-adguard-important.txt"

/-- Per-category output directory constant. -/
def CATEGORIES_PATH : String := "categories"

/-- Fixed description line written at the top of every blocklist. -/
def BLOCKLIST_ABOUT : String :=
  "This blocklist helps to restrict access to Google and its domains. Contribute at https://github.com/nickspaargaren/no-google"

/-- Ordered mapping Category name to ordered list of Domain strings:
the shallow embedding of the converter's `OrderedDict` field `self.data`.
Keys are unique and listed in insertion order. -/
abbrev Doc := List (String × List String)

/-- Parser state: the ordered mapping built so far plus the currently
active category (`None` before any header line). -/
structure ParseState where
  data : Doc
  category : Option String

/-- Classification of one (raw) input line, following the branch order of
`DomainBlocklistConverter.read`: strip the line; a line starting with `#`
is a header whose category name is `line.lstrip("# ").strip()`; otherwise a
non-empty line is a domain; otherwise the line is blank. -/
inductive LineKind where
  | header (cat : String)
  | domain (dom : String)
  | blank

/-- Classify one raw source line exactly as `read` does. -/
def classify (line : String) : LineKind :=
  let l := pyStrip line
  if startsWithChar '#' l then .header (pyStrip (pyLstripHashSpace l))
  else if l ≠ "" then .domain l
  else .blank

/-- Model of `OrderedDict.setdefault(category, [])`: if the key is already
present leave the mapping unchanged, otherwise append the key with an empty
list at the end (insertion order). -/
def setdefault (k : String) (d : Doc) : Doc :=
  if d.any (fun p => p.1 = k) then d else d ++ [(k, [])]

/-- Model of `self.data[category].append(line)`: extend the entry whose key
is `k` by the new domain at the end. -/
def appendEntry (k : String) (v : String) (d : Doc) : Doc :=
  d.map (fun p => if p.1 = k then (p.1, p.2 ++ [v]) else p)

/-- One iteration of the `read` loop over a single line. A domain line
with no active category raises `ValueError("Unable to store item without
category")`, modelled as the error case. -/
def readStep (st : ParseState) (line : String) : Except String ParseState :=
  match classify line with
  | .header c => .ok ⟨setdefault c st.data, some c⟩
  | .domain v =>
      match st.category with
      | none => .error "Unable to store item without category"
      | some c => .ok ⟨appendEntry c v st.data, some c⟩
  | .blank => .ok st

/-- The `read` loop over the remaining lines. -/
def readAux (st : ParseState) : List String → Except String ParseState
  | [] => .ok st
  | l :: ls =>
      match readStep st l with
      | .ok st' => readAux st' ls
      | .error e => .error e

/-- Model of `DomainBlocklistConverter.read`: fold the parser over the
input file's lines starting from the empty ordered mapping with no active
category, returning the final `self.data` or the fatal parse error. -/
def read (lines : List String) : Except String Doc :=
  match readAux ⟨[], none⟩ lines with
  | .ok st => .ok st.data
  | .error e => .error e

/-- Pi-hole line formatter, from the lambda in `pihole`. -/
def piholeFmt (entry : String) : String := "0.0.0.0 " ++ entry ++ "\n"

/-- Unbound line formatter, from the lambda in `unbound`. -/
def unboundFmt (entry : String) : String :=
  "local-zone: \"" ++ entry ++ "\" always_refuse\n"

/-- AdGuard line formatter, from the lambda in `adguard`. -/
def adguardFmt (entry : String) : String := "||" ++ entry ++ "^\n"

/-- AdGuard important line formatter, from the lambda in `adguard_important`. -/
def adguardImportantFmt (entry : String) : String :=
  "||" ++ entry ++ "^$important\n"

/-- Per-category parsed-file line formatter, from the second lambda in
`categories`. -/
def parsedFmt (entry : String) : String := entry ++ "\n"

/-- Model of `_write_blocklist`: the full byte content written to one
output file — two header lines (description and timestamp), then for each
category of the document in order a `# category` marker line followed by
one formatted line per non-empty entry in order. -/
def blocklistContent (ts : String) (fmt : String → String) (doc : Doc) : String :=
  "# " ++ BLOCKLIST_ABOUT ++ "\n" ++ "# Last updated: " ++ ts ++ "\n" ++
    String.join (doc.map (fun p =>
      "# " ++ p.1 ++ "\n" ++ String.join ((p.2.filter (fun e => e ≠ "")).map fmt)))

/-- Index of the last occurrence of a character in a list, if any. -/
def lastIdxOf (c : Char) : List Char → Option Nat
  | [] => none
  | x :: xs =>
      match lastIdxOf c xs with
      | some i => some (i + 1)
      | none => if x = c then some 0 else none

/-- Model of `pathlib` `with_suffix` applied to a single file name: the
suffix of a name is the part from its last dot onward, provided that dot is
neither the first nor the last character; `with_suffix` removes the old
suffix (when there is one) and appends the new one. -/
def withSuffixName (name suffix : String) : String :=
  match lastIdxOf '.' name.toList with
  | some i =>
      if 0 < i ∧ i + 1 < name.toList.length then String.mk (name.toList.take i) ++ suffix
      else name ++ suffix
  | none => name ++ suffix

/-- Model of `with_suffix` on a path: it acts on the component after the
last slash. -/
def withSuffixPath (path suffix : String) : String :=
  match lastIdxOf '/' path.toList with
  | some i =>
      String.mk (path.toList.take (i + 1)) ++
        withSuffixName (String.mk (path.toList.drop (i + 1))) suffix
  | none => withSuffixName path suffix

/-- Model of `Path(base).joinpath(name)` for the names arising here: an
empty name leaves the base unchanged, an absolute name replaces it, and
otherwise the name is appended after a slash. -/
def joinPath (base name : String) : String :=
  if name = "" then base
  else if startsWithChar '/' name then name
  else base ++ "/" ++ name

/-- Category slug, from `categories`: `category.replace(" ", "").lower()`. -/
def slugOf (c : String) : String := pyLower (pyRemoveSpaces c)

/-- Path of the per-category raw file:
`Path("categories").joinpath(slug).with_suffix(".txt")`. -/
def categoryTextPath (c : String) : String :=
  withSuffixPath (joinPath CATEGORIES_PATH (slugOf c)) ".txt"

/-- Path of the per-category parsed file:
`str(Path("categories").joinpath(slug)) + "parsed"`. -/
def categoryParsedPath (c : String) : String :=
  joinPath CATEGORIES_PATH (slugOf c) ++ "parsed"

/-- Files written by the `categories` action, in write order. Note that
`categories` passes each file to `_write_blocklist`, which always iterates
over the whole document, so every per-category file holds the full
blocklist content. -/
def categoriesFiles (ts : String) (doc : Doc) : List (String × String) :=
  doc.flatMap (fun p =>
    [(categoryTextPath p.1, blocklistContent ts piholeFmt doc),
     (categoryParsedPath p.1, blocklistContent ts parsedFmt doc)])

/-- Model of one `bumpCount` step of `duplicates`' `defaultdict(int)`
counter: increment an existing key or append a new key with count 1. -/
def bumpCount (m : List (String × Nat)) (e : String) : List (String × Nat) :=
  if m.any (fun p => p.1 = e) then
    m.map (fun p => if p.1 = e then (p.1, p.2 + 1) else p)
  else m ++ [(e, 1)]

/-- Occurrence counter over a list of entries, in dict insertion order,
as built by the first loop of `duplicates` (and by `check_duplicates`). -/
def countAll (es : List String) : List (String × Nat) :=
  es.foldl bumpCount []

/-- Report line printed by `duplicates` for one duplicated domain. -/
def dupMsg (e : String) (n : Nat) : String :=
  "Domain " ++ e ++ " found " ++ toString n ++ " times, please remove duplicate domains."

/-- Message printed by `duplicates` when no domain is repeated. -/
def noDupMsg : String := "No duplicate domains found."

/-- Model of `DomainBlocklistConverter.duplicates`: the lines printed to
standard output. The Document itself is left untouched (the function is
pure in the embedding, as in the source it only reads `self.data`). -/
def duplicatesReport (doc : Doc) : List String :=
  let hashes := countAll (doc.flatMap (fun p => p.2))
  let dupLines := (hashes.filter (fun p => 1 < p.2)).map (fun p => dupMsg p.1 p.2)
  if dupLines.isEmpty then [noDupMsg] else dupLines

/-- Format-producing subcommands, in the fixed order of `action_candidates`. -/
def actionCandidates : List String :=
  ["pihole", "unbound", "adguard", "adguard_important", "categories"]

/-- Special subcommands accepted by the entry point. -/
def specialCandidates : List String := ["all", "duplicates", "json"]

/-- Files written by one converter action given the parsed document and
the run's timestamp. `duplicates` and `json` write no files. -/
def actionFiles (ts : String) (doc : Doc) : String → List (String × String)
  | "pihole" => [(PIHOLE_FILE, blocklistContent ts piholeFmt doc)]
  | "unbound" => [(UNBOUND_FILE, blocklistContent ts unboundFmt doc)]
  | "adguard" => [(ADGUARD_FILE, blocklistContent ts adguardFmt doc)]
  | "adguard_important" =>
      [(ADGUARD_IMPORTANT_FILE, blocklistContent ts adguardImportantFmt doc)]
  | "categories" => categoriesFiles ts doc
  | _ => []

/-- Model of the whole process (`__main__` plus `run`): validate the
subcommand, read the source file, then dispatch. The result is the exit
code together with the list of `(filename, content)` writes in order.
A missing or invalid subcommand exits 1 before reading; a parse failure
exits 1 before any action runs; `json` dumps to stdout and returns
without writing files. -/
def mainModel (argv1 : Option String) (lines : List String) (ts : String) :
    Nat × List (String × String) :=
  match argv1 with
  | none => (1, [])
  | some sub =>
      if sub ∈ actionCandidates ++ specialCandidates then
        match read lines with
        | .error _ => (1, [])
        | .ok doc =>
            if sub = "json" then (0, [])
            else
              let subs := if sub = "all" then actionCandidates else [sub]
              (0, subs.flatMap (actionFiles ts doc))
      else (1, [])

end Convert

namespace ConvertSpec

open PyStr Convert

/-- Specification-side description of category order: the category names
declared by header lines, in order of first appearance, those already in
`seen` skipped. -/
def firstSeen (seen : List String) : List String → List String
  | [] => []
  | l :: ls =>
      match classify l with
      | .header c => if c ∈ seen then firstSeen seen ls else c :: firstSeen (c :: seen) ls
      | _ => firstSeen seen ls

/-- Specification-side description of the domains attributed to category
`c`: walk the file tracking the active category `cur` and collect, in
source order, every domain line whose active category is `c`. -/
def specDomains (c : String) (cur : Option String) : List String → List String
  | [] => []
  | l :: ls =>
      match classify l with
      | .header k => specDomains c (some k) ls
      | .domain v => (if cur = some c then [v] else []) ++ specDomains c cur ls
      | .blank => specDomains c cur ls

/-- First-occurrence deduplication of a list of strings, skipping those in
`seen`; describes both dict key order and `dict.fromkeys` deduplication. -/
def firstNew (seen : List String) : List String → List String
  | [] => []
  | a :: es => if a ∈ seen then firstNew seen es else a :: firstNew (a :: seen) es

/-- Lookup of the value list stored under a key in an association list,
defaulting to the empty list when the key is absent. -/
def lookupList (c : String) (d : Doc) : List String :=
  match d.find? (fun p => p.1 = c) with
  | some p => p.2
  | none => []

/-- Boolean test: the raw line is classified as a domain line (non-blank,
non-comment). -/
def isDomainLine (l : String) : Bool :=
  match classify l with
  | .domain _ => true
  | _ => false

/-- Boolean test: the raw line is classified as a category header line. -/
def isHeaderLine (l : String) : Bool :=
  match classify l with
  | .header _ => true
  | _ => false

end ConvertSpec

namespace Tests

open PyStr

/-- Model of `tests.check_duplicates`: count the stripped non-empty lines
of the file (a plain insertion-ordered dict counter, the same structure as
`Convert.countAll`), then fail on the first domain whose count exceeds 1.
The error value carries the offending domain and its count (the Python
`AssertionError` message interpolates exactly these). -/
def check_duplicates (lines : List String) : Except (String × Nat) Unit :=
  let ds := (lines.map pyStrip).filter (fun l => l ≠ "")
  match (Convert.countAll ds).find? (fun p => 1 < p.2) with
  | some p => .error (p.1, p.2)
  | none => .ok ()

/-- Loop of `tests.check_regex_domains` with the one-based line counter of
`enumerate(f, 1)`: blank (stripped-empty) lines are skipped, any other
line is checked against every forbidden substring in order, and the first
hit raises, carrying the line number, the forbidden substring and the
stripped line. -/
def check_regex_go (forbidden : List String) (n : Nat) :
    List String → Except (Nat × String × String) Unit
  | [] => .ok ()
  | l :: ls =>
      let d := pyStrip l
      if d ≠ "" then
        match forbidden.find? (fun f => decide (f.toList <:+: d.toList)) with
        | some f => .error (n, f, d)
        | none => check_regex_go forbidden (n + 1) ls
      else check_regex_go forbidden (n + 1) ls

/-- Model of `tests.check_regex_domains` over the file's lines. -/
def check_regex_domains (lines forbidden : List String) :
    Except (Nat × String × String) Unit :=
  check_regex_go forbidden 1 lines

/-- Forbidden substrings configured in `tests.main` for `--type regex`. -/
def forbiddenDomains : List String := [".l.google.com", ".googlevideo.com"]

end Tests

namespace DnsCheck

open PyStr

/-- Outcome of one resolver `NS` query as distinguished by the exception
handlers of `dnscheck.check_domain`. -/
inductive DnsOutcome where
  | answer
  | nxdomain
  | noNameservers
  | noAnswer
  | timedOut
  | dnsException
  | otherError
deriving DecidableEq

/-- Model of `dnscheck.check_domain` given the resolver outcome: the first
component is the returned boolean (`true` means the domain has no NS
records and is to be removed), the second records whether a
warning/error diagnostic was logged on that path. -/
def check_domain : DnsOutcome → Bool × Bool
  | .answer => (false, false)
  | .nxdomain => (true, false)
  | .noNameservers => (false, true)
  | .noAnswer => (false, true)
  | .timedOut => (false, true)
  | .dnsException => (false, true)
  | .otherError => (false, true)

/-- Model of the rewrite loop of `dnscheck.main`: every line is stripped;
non-blank lines not starting with `#` are dropped when `check_domain`
reports no NS records and otherwise kept with a newline re-appended;
comment and blank lines are kept with a newline re-appended. The resolver
behaviour is the oracle `dns`, mapping each stripped domain line to its
outcome. -/
def rewriteLines (dns : String → DnsOutcome) : List String → List String
  | [] => []
  | l :: ls =>
      let s := pyStrip l
      if s ≠ "" ∧ startsWithChar '#' s = false then
        if (check_domain (dns s)).1 then rewriteLines dns ls
        else (s ++ "\n") :: rewriteLines dns ls
      else (s ++ "\n") :: rewriteLines dns ls

/-- Removal predicate of the rewrite: a stripped line is removed exactly
when it is non-blank, not a comment, and classified as having no NS
records. -/
def removedLine (dns : String → DnsOutcome) (s : String) : Bool :=
  (!(s == "")) && (!(startsWithChar '#' s)) && (check_domain (dns s)).1

end DnsCheck

namespace WhoisCheck

open PyStr

/-- Raw outcome of one `whois.whois` call as distinguished by
`is_registered`'s handlers: a successful reply carrying the (normalised)
domain-name list, the organisation, and the name-server list when the
reply's `name_servers` field is a list; or one of the handled exceptions. -/
inductive WhoisRaw where
  | found (domainNames : List String) (org : String) (nameServers : Option (List String))
  | pywhoisError
  | commandFailed
  | unknownTld
  | parseFailed
  | dateFormatErr
  | connRefused
  | timedOut
  | otherExc
deriving DecidableEq

/-- Value returned by `is_registered`: the registration triple, `False`,
or `None` (the transient-failure signal). -/
inductive WhoisRes where
  | registered (domainNames : List String) (org : String) (nameServers : List String)
  | notRegistered
  | transientFail
deriving DecidableEq

/-- Model of `domain-check-api.is_registered`: a reply with a truthy
`domain_name` yields the registration triple with name servers
lower-cased; a falsy `domain_name` and every handled non-transient
exception yield `False`; `ConnectionRefusedError` and `TimeoutError`
yield `None`, the transient-failure signal. -/
def is_registered : WhoisRaw → WhoisRes
  | .found dn org ns =>
      if dn = [] then .notRegistered
      else .registered dn org ((ns.getD []).map pyLower)
  | .connRefused => .transientFail
  | .timedOut => .transientFail
  | _ => .notRegistered

/-- Boolean test for the transient-failure signal. -/
def isTransient : WhoisRes → Bool
  | .transientFail => true
  | _ => false

/-- Main pass of `domain-check-api.main` over the deduplicated domain
list: returns the trace of `is_registered` calls as `(domain, attempt)`
pairs, the `(domain, result)` pairs printed during the pass, and the
queue of domains whose lookup signalled a transient failure, each in
loop order. The WHOIS service is the oracle, mapping a domain and an
attempt index to the raw outcome. -/
def whoisMainLoop (oracle : String → Nat → WhoisRaw) :
    List String → List (String × Nat) × List (String × WhoisRes) × List String
  | [] => ([], [], [])
  | d :: ds =>
      let rest := whoisMainLoop oracle ds
      match is_registered (oracle d 0) with
      | .transientFail => ((d, 0) :: rest.1, rest.2.1, d :: rest.2.2)
      | r => ((d, 0) :: rest.1, (d, r) :: rest.2.1, rest.2.2)

/-- Model of `domain-check-api.main`: deduplicate the domain list
preserving first occurrences (`remove_duplicates` via `dict.fromkeys`),
run the main pass, then run exactly one deferred retry pass over the
queued subset. Returns the full call trace and the printed
`(domain, result)` pairs, retry results last. -/
def whoisRun (oracle : String → Nat → WhoisRaw) (ds : List String) :
    List (String × Nat) × List (String × WhoisRes) :=
  let dd := ConvertSpec.firstNew [] ds
  let r := whoisMainLoop oracle dd
  (r.1 ++ r.2.2.map (fun d => (d, 1)),
   r.2.1 ++ r.2.2.map (fun d => (d, is_registered (oracle d 1))))

end WhoisCheck

namespace Convert

/-- C2: each emitter produces exactly its documented line, newline
terminated: `0.0.0.0 d`, `local-zone: "d" always_refuse`, `||d^` and
`||d^$important`; at `doubleclick.net` the four exact example lines of the
spec are produced. -/
theorem emitters_exact :
    (∀ d : String, piholeFmt d = "0.0.0.0 " ++ d ++ "\n"
      ∧ unboundFmt d = "local-zone: \"" ++ d ++ "\" always_refuse\n"
      ∧ adguardFmt d = "||" ++ d ++ "^\n"
      ∧ adguardImportantFmt d = "||" ++ d ++ "^$important\n")
    ∧ piholeFmt "doubleclick.net" = "0.0.0.0 doubleclick.net\n"
    ∧ unboundFmt "doubleclick.net" = "local-zone: \"doubleclick.net\" always_refuse\n"
    ∧ adguardFmt "doubleclick.net" = "||doubleclick.net^\n"
    ∧ adguardImportantFmt "doubleclick.net" = "||doubleclick.net^$important\n" := by
  refine ⟨fun d => ⟨rfl, rfl, rfl, rfl⟩, ?_, ?_, ?_, ?_⟩ <;> rfl

end Convert

namespace ConvertSpec

open PyStr Convert

theorem mem_keys_iff_any {β : Type} (k : String) (d : List (String × β)) :
    d.any (fun p => decide (p.1 = k)) = true ↔ k ∈ d.map Prod.fst := by
  simp [List.any_eq_true, List.mem_map]

theorem setdefault_of_mem {k : String} {d : Doc} (h : k ∈ d.map Prod.fst) :
    setdefault k d = d := by
  unfold setdefault
  rw [if_pos ((mem_keys_iff_any k d).mpr h)]

theorem setdefault_of_not_mem {k : String} {d : Doc} (h : k ∉ d.map Prod.fst) :
    setdefault k d = d ++ [(k, [])] := by
  unfold setdefault
  rw [if_neg (fun hc => h ((mem_keys_iff_any k d).mp hc))]

theorem lookupList_nil (x : String) : lookupList x ([] : Doc) = [] := rfl

theorem lookupList_cons (x : String) (p : String × List String) (d : Doc) :
    lookupList x (p :: d) = if p.1 = x then p.2 else lookupList x d := by
  by_cases h : p.1 = x <;> simp [lookupList, List.find?, h]

theorem lookupList_append_empty (x k : String) (d : Doc) :
    lookupList x (d ++ [(k, [])]) = lookupList x d := by
  induction d with
  | nil =>
      rw [List.nil_append, lookupList_cons]
      split <;> rfl
  | cons p d ih =>
      rw [List.cons_append, lookupList_cons, lookupList_cons, ih]

theorem lookupList_setdefault (x k : String) (d : Doc) :
    lookupList x (setdefault k d) = lookupList x d := by
  by_cases h : k ∈ d.map Prod.fst
  · rw [setdefault_of_mem h]
  · rw [setdefault_of_not_mem h, lookupList_append_empty]

theorem appendEntry_cons (k v : String) (p : String × List String) (d : Doc) :
    appendEntry k v (p :: d) =
      (if p.1 = k then (p.1, p.2 ++ [v]) else p) :: appendEntry k v d := rfl

theorem keys_appendEntry (k v : String) (d : Doc) :
    (appendEntry k v d).map Prod.fst = d.map Prod.fst := by
  induction d with
  | nil => rfl
  | cons p d ih => by_cases h : p.1 = k <;> simp [appendEntry_cons, h, ih]

theorem lookupList_appendEntry_ne {x k : String} (v : String) (d : Doc) (h : x ≠ k) :
    lookupList x (appendEntry k v d) = lookupList x d := by
  induction d with
  | nil => rfl
  | cons p d ih =>
      by_cases hp : p.1 = k
      · rw [appendEntry_cons, if_pos hp, lookupList_cons, lookupList_cons]
        have hpx : ¬ p.1 = x := fun hx => h (by rw [← hx, hp])
        rw [if_neg hpx, if_neg hpx, ih]
      · rw [appendEntry_cons, if_neg hp, lookupList_cons, lookupList_cons, ih]

theorem lookupList_appendEntry_self (k v : String) (d : Doc) :
    k ∈ d.map Prod.fst →
    lookupList k (appendEntry k v d) = lookupList k d ++ [v] := by
  induction d with
  | nil => intro h; simp at h
  | cons p d ih =>
      intro h
      by_cases hp : p.1 = k
      · rw [appendEntry_cons, if_pos hp, lookupList_cons, lookupList_cons]
        simp [hp]
      · rw [appendEntry_cons, if_neg hp, lookupList_cons, lookupList_cons,
          if_neg hp, if_neg hp]
        apply ih
        rw [List.map_cons] at h
        rcases List.mem_cons.mp h with h1 | h2
        · exact absurd h1.symm hp
        · exact h2

theorem firstSeen_congr : ∀ (ls s₁ s₂ : List String),
    (∀ x, x ∈ s₁ ↔ x ∈ s₂) → firstSeen s₁ ls = firstSeen s₂ ls := by
  intro ls
  induction ls with
  | nil => intro s₁ s₂ _; rfl
  | cons l ls ih =>
      intro s₁ s₂ h
      cases hc : classify l with
      | header c =>
          simp only [firstSeen, hc]
          by_cases hm : c ∈ s₁
          · rw [if_pos hm, if_pos ((h c).mp hm)]
            exact ih s₁ s₂ h
          · rw [if_neg hm, if_neg (fun hx => hm ((h c).mpr hx))]
            exact congrArg (c :: ·)
              (ih (c :: s₁) (c :: s₂) (fun x => by simp [List.mem_cons, h x]))
      | domain v => simp only [firstSeen, hc]; exact ih s₁ s₂ h
      | blank => simp only [firstSeen, hc]; exact ih s₁ s₂ h

theorem firstSeen_forall_nodup : ∀ (ls seen : List String),
    (∀ x ∈ firstSeen seen ls, x ∉ seen) ∧ (firstSeen seen ls).Nodup := by
  intro ls
  induction ls with
  | nil => intro seen; exact ⟨by simp [firstSeen], by simp [firstSeen]⟩
  | cons l ls ih =>
      intro seen
      cases hc : classify l with
      | header c =>
          simp only [firstSeen, hc]
          by_cases hm : c ∈ seen
          · rw [if_pos hm]; exact ih seen
          · rw [if_neg hm]
            obtain ⟨h1, h2⟩ := ih (c :: seen)
            refine ⟨?_, ?_⟩
            · intro x hx
              rcases List.mem_cons.mp hx with rfl | hx'
              · exact hm
              · intro hxs; exact (h1 x hx') (List.mem_cons_of_mem c hxs)
            · rw [List.nodup_cons]
              exact ⟨fun hcmem => (h1 c hcmem) (List.mem_cons_self c seen), h2⟩
      | domain v => simp only [firstSeen, hc]; exact ih seen
      | blank => simp only [firstSeen, hc]; exact ih seen

theorem readAux_characterization : ∀ (ls : List String) (st st' : ParseState),
    (∀ c, st.category = some c → c ∈ st.data.map Prod.fst) →
    readAux st ls = .ok st' →
    st'.data.map Prod.fst =
        st.data.map Prod.fst ++ firstSeen (st.data.map Prod.fst) ls
    ∧ ∀ c, lookupList c st'.data =
        lookupList c st.data ++ specDomains c st.category ls := by
  intro ls
  induction ls with
  | nil =>
      intro st st' _ h
      have hss : st = st' := by simpa [readAux] using h
      subst hss
      exact ⟨by simp [firstSeen], fun c => by simp [specDomains]⟩
  | cons l ls ih =>
      intro st st' hcat h
      rw [readAux] at h
      cases hc : classify l with
      | header c =>
          have hstep : readStep st l = .ok ⟨setdefault c st.data, some c⟩ := by
            simp [readStep, hc]
          rw [hstep] at h
          have hcat2 : ∀ c',
              (⟨setdefault c st.data, some c⟩ : ParseState).category = some c' →
              c' ∈ (⟨setdefault c st.data, some c⟩ : ParseState).data.map Prod.fst := by
            intro c' hc'
            injection hc' with hcc
            subst hcc
            by_cases hm : c ∈ st.data.map Prod.fst
            · rw [setdefault_of_mem hm]; exact hm
            · rw [setdefault_of_not_mem hm]; simp
          obtain ⟨hk, hl⟩ := ih _ st' hcat2 h
          constructor
          · rw [hk]
            by_cases hm : c ∈ st.data.map Prod.fst
            · rw [setdefault_of_mem hm]
              simp only [firstSeen, hc]
              rw [if_pos hm]
            · rw [setdefault_of_not_mem hm]
              simp only [List.map_append, List.map_cons, List.map_nil]
              rw [List.append_assoc]
              simp only [firstSeen, hc]
              rw [if_neg hm, List.singleton_append]
              congr 1
              congr 1
              exact firstSeen_congr ls _ _
                (fun x => by simp [List.mem_append, List.mem_cons, or_comm])
          · intro c'
            rw [hl c', lookupList_setdefault]
            simp only [specDomains, hc]
      | domain v =>
          cases hcur : st.category with
          | none =>
              have hstep : readStep st l = .error "Unable to store item without category" := by
                simp [readStep, hc, hcur]
              rw [hstep] at h
              simp at h
          | some c0 =>
              have hstep : readStep st l = .ok ⟨appendEntry c0 v st.data, some c0⟩ := by
                simp [readStep, hc, hcur]
              rw [hstep] at h
              have hc0 : c0 ∈ st.data.map Prod.fst := hcat c0 hcur
              have hcat2 : ∀ c',
                  (⟨appendEntry c0 v st.data, some c0⟩ : ParseState).category = some c' →
                  c' ∈ (⟨appendEntry c0 v st.data, some c0⟩ : ParseState).data.map Prod.fst := by
                intro c' hc'
                injection hc' with hcc
                subst hcc
                rw [keys_appendEntry]
                exact hc0
              obtain ⟨hk, hl⟩ := ih _ st' hcat2 h
              constructor
              · rw [hk, keys_appendEntry]
                simp only [firstSeen, hc]
              · intro c'
                rw [hl c']
                simp only [specDomains, hc]
                by_cases hcc : c' = c0
                · subst hcc
                  rw [lookupList_appendEntry_self c' v st.data hc0,
                    if_pos rfl, List.append_assoc, List.singleton_append]
                · rw [lookupList_appendEntry_ne v st.data hcc,
                    if_neg (fun hyp => hcc (Option.some.inj hyp).symm),
                    List.nil_append]
      | blank =>
          have hstep : readStep st l = .ok st := by simp [readStep, hc]
          rw [hstep] at h
          obtain ⟨hk, hl⟩ := ih st st' hcat h
          constructor
          · rw [hk]; simp only [firstSeen, hc]
          · intro c'; rw [hl c']; simp only [specDomains, hc]

theorem doc_eq_keys_map : ∀ (d : Doc), (d.map Prod.fst).Nodup →
    d = (d.map Prod.fst).map (fun c => (c, lookupList c d)) := by
  intro d
  induction d with
  | nil => intro _; rfl
  | cons p d ih =>
      intro hnd
      rw [List.map_cons, List.nodup_cons] at hnd
      obtain ⟨hp, hnd⟩ := hnd
      rw [List.map_cons, List.map_cons]
      congr 1
      · rw [lookupList_cons, if_pos rfl]
      · have hcongr : ∀ c ∈ d.map Prod.fst,
            (fun c => (c, lookupList c (p :: d))) c = (fun c => (c, lookupList c d)) c := by
          intro c hcmem
          simp only
          rw [lookupList_cons, if_neg (fun hx => hp (by rw [hx]; exact hcmem))]
        rw [List.map_congr_left hcongr]
        exact ih hnd

end ConvertSpec


namespace Convert

open ConvertSpec

/-- C1: for every well-formed source file (one `read` accepts), the parsed
document is exactly the list of category names in first-seen header order,
each paired with all domains attributed to it in source order — so a
repeated header re-opens the existing key and later domains are appended
after the earlier entries — and consequently every emitted output lists
its category sections in first-seen order with the domains of each
category in source order. -/
theorem read_first_seen_order (lines : List String) (d : Doc)
    (h : read lines = .ok d) :
    d = (firstSeen [] lines).map (fun c => (c, specDomains c none lines))
    ∧ ∀ ts fmt, blocklistContent ts fmt d =
        "# " ++ BLOCKLIST_ABOUT ++ "\n" ++ "# Last updated: " ++ ts ++ "\n" ++
          String.join ((firstSeen [] lines).map (fun c =>
            "# " ++ c ++ "\n" ++
              String.join (((specDomains c none lines).filter (fun e => e ≠ "")).map fmt))) := by
  have hres : ∃ st', readAux ⟨[], none⟩ lines = .ok st' ∧ st'.data = d := by
    unfold read at h
    cases hr : readAux ⟨[], none⟩ lines with
    | ok st' =>
        rw [hr] at h
        exact ⟨st', rfl, by injection h⟩
    | error e => rw [hr] at h; cases h
  obtain ⟨st', hok, hdata⟩ := hres
  obtain ⟨hk, hl⟩ := readAux_characterization lines ⟨[], none⟩ st'
    (by intro c hc; cases hc) hok
  rw [hdata] at hk hl
  simp only [List.map_nil, List.nil_append] at hk
  simp only [lookupList_nil, List.nil_append] at hl
  have hnd : (d.map Prod.fst).Nodup := by
    rw [hk]; exact (firstSeen_forall_nodup lines []).2
  have hmain : d = (firstSeen [] lines).map (fun c => (c, specDomains c none lines)) := by
    conv_lhs => rw [doc_eq_keys_map d hnd]
    rw [hk]
    exact List.map_congr_left (fun c _ => by rw [hl c])
  refine ⟨hmain, fun ts fmt => ?_⟩
  rw [hmain]
  simp only [blocklistContent, List.map_map]
  rfl

/-- Witness for C1 at a concrete source file exercising a repeated
category header, a blank line, and interleaved categories. -/
theorem read_first_seen_order_witness :
    read ["# Ads", "doubleclick.net", "", "# Analytics", "a.com", "#  Ads  ", "b.com"] =
      .ok [("Ads", ["doubleclick.net", "b.com"]), ("Analytics", ["a.com"])]
    ∧ [("Ads", ["doubleclick.net", "b.com"]), ("Analytics", ["a.com"])] =
        (firstSeen [] ["# Ads", "doubleclick.net", "", "# Analytics", "a.com", "#  Ads  ", "b.com"]).map
          (fun c => (c, specDomains c none
            ["# Ads", "doubleclick.net", "", "# Analytics", "a.com", "#  Ads  ", "b.com"])) := by
  constructor
  · rfl
  · exact (read_first_seen_order
      ["# Ads", "doubleclick.net", "", "# Analytics", "a.com", "#  Ads  ", "b.com"]
      [("Ads", ["doubleclick.net", "b.com"]), ("Analytics", ["a.com"])] rfl).1

end Convert

namespace ConvertSpec

open PyStr Convert

theorem readAux_missing_category : ∀ (ls : List String) (d : Doc) (i : Nat),
    i < ls.length → isDomainLine (ls.getD i "") = true →
    (∀ j, j < i → isHeaderLine (ls.getD j "") = false) →
    readAux ⟨d, none⟩ ls = .error "Unable to store item without category" := by
  intro ls
  induction ls with
  | nil => intro d i hi _ _; simp at hi
  | cons l ls ih =>
      intro d i hi hdom hnohead
      rw [readAux]
      cases hc : classify l with
      | header c =>
          exfalso
          cases i with
          | zero =>
              rw [List.getD_cons_zero] at hdom
              simp [isDomainLine, hc] at hdom
          | succ i' =>
              have hnh := hnohead 0 (Nat.succ_pos i')
              rw [List.getD_cons_zero] at hnh
              simp [isHeaderLine, hc] at hnh
      | domain v =>
          have hstep : readStep ⟨d, none⟩ l = .error "Unable to store item without category" := by
            simp [readStep, hc]
          rw [hstep]
      | blank =>
          have hstep : readStep ⟨d, none⟩ l = .ok ⟨d, none⟩ := by
            simp [readStep, hc]
          rw [hstep]
          cases i with
          | zero =>
              exfalso
              rw [List.getD_cons_zero] at hdom
              simp [isDomainLine, hc] at hdom
          | succ i' =>
              apply ih d i'
              · exact Nat.lt_of_succ_lt_succ (by simpa using hi)
              · rw [List.getD_cons_succ] at hdom
                exact hdom
              · intro j hj
                have := hnohead (j + 1) (Nat.succ_lt_succ hj)
                rw [List.getD_cons_succ] at this
                exact this

end ConvertSpec

namespace Convert

open ConvertSpec

/-- C3: for every source file in which some non-blank non-comment line
occurs before any category header line, `read` fails with the
missing-category error, and for every subcommand and timestamp the
process exits with status 1 having written zero output files. -/
theorem missing_category_aborts (lines : List String) (i : Nat)
    (hi : i < lines.length)
    (hdom : isDomainLine (lines.getD i "") = true)
    (hnh : ∀ j, j < i → isHeaderLine (lines.getD j "") = false) :
    read lines = .error "Unable to store item without category"
    ∧ ∀ arg ts, (mainModel arg lines ts).1 = 1 ∧ (mainModel arg lines ts).2 = [] := by
  have herr : readAux ⟨[], none⟩ lines = .error "Unable to store item without category" :=
    readAux_missing_category lines [] i hi hdom hnh
  have hread : read lines = .error "Unable to store item without category" := by
    unfold read
    rw [herr]
  refine ⟨hread, fun arg ts => ?_⟩
  cases arg with
  | none => exact ⟨rfl, rfl⟩
  | some sub =>
      simp only [mainModel]
      by_cases hmem : sub ∈ actionCandidates ++ specialCandidates
      · rw [if_pos hmem, hread]
        exact ⟨rfl, rfl⟩
      · rw [if_neg hmem]
        exact ⟨rfl, rfl⟩

/-- Witness for C3: a file whose first line is a bare domain aborts with
exit status 1 and no files written, for the `pihole` subcommand. -/
theorem missing_category_aborts_witness :
    (0 < (["doubleclick.net"] : List String).length
      ∧ isDomainLine ((["doubleclick.net"] : List String).getD 0 "") = true)
    ∧ read ["doubleclick.net"] = .error "Unable to store item without category"
    ∧ (mainModel (some "pihole") ["doubleclick.net"] "2025-01-01").1 = 1
    ∧ (mainModel (some "pihole") ["doubleclick.net"] "2025-01-01").2 = [] := by
  have h := missing_category_aborts ["doubleclick.net"] 0 (by decide) (by rfl)
    (fun j hj => absurd hj (Nat.not_lt_zero j))
  exact ⟨⟨by decide, by rfl⟩, h.1,
    (h.2 (some "pihole") "2025-01-01").1, (h.2 (some "pihole") "2025-01-01").2⟩

/-- C5: the emitted exit status and output files are a deterministic
function of the source file's lines and the run timestamp alone — two
runs over an unchanged source with the timestamp held fixed produce
byte-identical outputs. -/
theorem run_deterministic (arg : Option String) (l1 l2 : List String)
    (t1 t2 : String) (hl : l1 = l2) (ht : t1 = t2) :
    mainModel arg l1 t1 = mainModel arg l2 t2 := by
  subst hl
  subst ht
  rfl

/-- Witness for C5 at a concrete source file and timestamp, running the
aggregate `all` subcommand. -/
theorem run_deterministic_witness :
    (["# Ads", "doubleclick.net"] : List String) = ["# Ads", "doubleclick.net"]
    ∧ ("2025-01-01" : String) = "2025-01-01"
    ∧ mainModel (some "all") ["# Ads", "doubleclick.net"] "2025-01-01" =
        mainModel (some "all") ["# Ads", "doubleclick.net"] "2025-01-01" :=
  ⟨rfl, rfl, run_deterministic (some "all") ["# Ads", "doubleclick.net"]
    ["# Ads", "doubleclick.net"] "2025-01-01" "2025-01-01" rfl rfl⟩

end Convert

namespace Convert

open PyStr

theorem startsWithChar_false_of_not_mem (c : Char) (s : String) (h : c ∉ s.toList) :
    startsWithChar c s = false := by
  have h' : c ∉ s.data := h
  cases hx : s.data with
  | nil => simp [startsWithChar, String.toList, hx]
  | cons x xs =>
      rw [hx] at h'
      have hxc : ¬ x = c := fun he => h' (by rw [← he]; exact List.mem_cons_self x xs)
      simp [startsWithChar, String.toList, hx, hxc]

theorem lastIdxOf_eq_none (c : Char) : ∀ (cs : List Char), c ∉ cs → lastIdxOf c cs = none := by
  intro cs
  induction cs with
  | nil => intro _; rfl
  | cons x xs ih =>
      intro h
      have hxs : c ∉ xs := fun h' => h (List.mem_cons_of_mem x h')
      have hx : ¬ x = c := fun h' => h (by rw [← h']; exact List.mem_cons_self x xs)
      simp only [lastIdxOf, ih hxs, if_neg hx]

theorem lastIdxOf_append (c : Char) : ∀ (xs ys : List Char), c ∉ ys →
    lastIdxOf c (xs ++ ys) = lastIdxOf c xs := by
  intro xs
  induction xs with
  | nil =>
      intro ys h
      rw [List.nil_append, lastIdxOf_eq_none c ys h]
      rfl
  | cons x xs ih =>
      intro ys h
      rw [List.cons_append]
      simp only [lastIdxOf, ih ys h]

theorem withSuffixPath_of_lastIdx (path suffix : String) (i : Nat)
    (h : lastIdxOf '/' path.toList = some i) :
    withSuffixPath path suffix =
      String.mk (path.toList.take (i + 1)) ++
        withSuffixName (String.mk (path.toList.drop (i + 1))) suffix := by
  unfold withSuffixPath
  rw [h]

theorem withSuffixName_no_dot (slug suffix : String) (h : '.' ∉ slug.toList) :
    withSuffixName slug suffix = slug ++ suffix := by
  unfold withSuffixName
  rw [lastIdxOf_eq_none '.' slug.toList h]

theorem joinPath_categories (slug : String) (h1 : slug ≠ "") (h2 : '/' ∉ slug.toList) :
    joinPath CATEGORIES_PATH slug = "categories/" ++ slug := by
  have hs : startsWithChar '/' slug = false := startsWithChar_false_of_not_mem '/' slug h2
  unfold joinPath
  rw [if_neg h1, if_neg (by simp [hs])]
  rfl

theorem withSuffixPath_categories (slug suffix : String) (h : '/' ∉ slug.toList) :
    withSuffixPath ("categories/" ++ slug) suffix =
      "categories/" ++ withSuffixName slug suffix := by
  have htl : ("categories/" ++ slug).toList = "categories/".toList ++ slug.toList := by simp
  have hidx : lastIdxOf '/' ("categories/" ++ slug).toList = some 10 := by
    rw [htl, lastIdxOf_append '/' "categories/".toList slug.toList h]
    rfl
  rw [withSuffixPath_of_lastIdx _ suffix 10 hidx, htl]
  rw [@List.take_left' Char "categories/".toList slug.toList (10 + 1) rfl]
  rw [@List.drop_left' Char "categories/".toList slug.toList (10 + 1) rfl]
  exact rfl

/-- C4 counterexample: for category name "Tools v2.5" (slug `toolsv2.5`)
the raw per-category file is written to `categories/toolsv2.txt`, not to
`<slug>.txt`: `with_suffix(".txt")` replaces the slug's existing `.5`
suffix instead of appending. -/
theorem category_txt_counterexample :
    categoryTextPath "Tools v2.5" = "categories/toolsv2.txt"
    ∧ categoryTextPath "Tools v2.5" ≠ "categories/" ++ slugOf "Tools v2.5" ++ ".txt"
    ∧ slugOf "Tools v2.5" = "toolsv2.5" := by
  refine ⟨rfl, ?_, rfl⟩
  decide

/-- C4 (amended): for every category name whose slug (the name lower-cased
with spaces removed, all other characters preserved) is nonempty, contains
no slash, and is not the special `.` component that `pathlib` would
normalise away, the parsed file is written to `categories/<slug>parsed`
and the raw file to `categories/` followed by `with_suffix(slug, ".txt")`;
when the slug contains no dot the latter is exactly `categories/<slug>.txt`.
The hypothesis excluding `.` is not needed by the path model but keeps the
statement within the region where the model matches `pathlib`. -/
theorem category_filenames_amended (c : String)
    (h1 : slugOf c ≠ "") (h2 : '/' ∉ (slugOf c).toList) (h3 : slugOf c ≠ ".") :
    categoryParsedPath c = "categories/" ++ slugOf c ++ "parsed"
    ∧ categoryTextPath c = "categories/" ++ withSuffixName (slugOf c) ".txt"
    ∧ ('.' ∉ (slugOf c).toList →
        categoryTextPath c = "categories/" ++ slugOf c ++ ".txt") := by
  have hjoin := joinPath_categories (slugOf c) h1 h2
  refine ⟨?_, ?_, ?_⟩
  · unfold categoryParsedPath
    rw [hjoin]
  · unfold categoryTextPath
    rw [hjoin, withSuffixPath_categories (slugOf c) ".txt" h2]
  · intro hdot
    unfold categoryTextPath
    rw [hjoin, withSuffixPath_categories (slugOf c) ".txt" h2,
      withSuffixName_no_dot _ _ hdot, ← String.append_assoc]

/-- Witness for the amended C4 at the spec's own example category
"Analytics & Ads". -/
theorem category_filenames_amended_witness :
    (slugOf "Analytics & Ads" ≠ "" ∧ '/' ∉ (slugOf "Analytics & Ads").toList
      ∧ slugOf "Analytics & Ads" ≠ ".")
    ∧ categoryParsedPath "Analytics & Ads" = "categories/analytics&adsparsed"
    ∧ categoryTextPath "Analytics & Ads" = "categories/analytics&ads.txt" := by
  have h := category_filenames_amended "Analytics & Ads" (by decide) (by decide) (by decide)
  refine ⟨⟨by decide, by decide, by decide⟩, ?_, ?_⟩
  · exact h.1.trans (by rfl)
  · exact (h.2.2 (by decide)).trans (by rfl)

end Convert

namespace ConvertSpec

open Convert

theorem firstNew_forall_nodup : ∀ (es seen : List String),
    (∀ x ∈ firstNew seen es, x ∉ seen) ∧ (firstNew seen es).Nodup := by
  intro es
  induction es with
  | nil => intro seen; exact ⟨by simp [firstNew], by simp [firstNew]⟩
  | cons a es ih =>
      intro seen
      by_cases hm : a ∈ seen
      · simp only [firstNew, if_pos hm]
        exact ih seen
      · simp only [firstNew, if_neg hm]
        obtain ⟨h1, h2⟩ := ih (a :: seen)
        refine ⟨?_, ?_⟩
        · intro x hx
          rcases List.mem_cons.mp hx with rfl | hx'
          · exact hm
          · intro hxs
            exact (h1 x hx') (List.mem_cons_of_mem a hxs)
        · rw [List.nodup_cons]
          exact ⟨fun hcmem => (h1 a hcmem) (List.mem_cons_self a seen), h2⟩

theorem firstNew_congr : ∀ (es s₁ s₂ : List String),
    (∀ x, x ∈ s₁ ↔ x ∈ s₂) → firstNew s₁ es = firstNew s₂ es := by
  intro es
  induction es with
  | nil => intro _ _ _; rfl
  | cons a es ih =>
      intro s₁ s₂ h
      by_cases hm : a ∈ s₁
      · simp only [firstNew, if_pos hm, if_pos ((h a).mp hm)]
        exact ih s₁ s₂ h
      · simp only [firstNew, if_neg hm, if_neg (fun hx => hm ((h a).mpr hx))]
        exact congrArg (a :: ·) (ih (a :: s₁) (a :: s₂) (fun x => by simp [List.mem_cons, h x]))

theorem mem_firstNew : ∀ (es seen : List String) (x : String),
    x ∈ firstNew seen es ↔ x ∈ es ∧ x ∉ seen := by
  intro es
  induction es with
  | nil => intro seen x; simp [firstNew]
  | cons a es ih =>
      intro seen x
      by_cases hm : a ∈ seen
      · rw [show firstNew seen (a :: es) = firstNew seen es from by
          simp only [firstNew, if_pos hm]]
        rw [ih seen x]
        constructor
        · rintro ⟨hx, hs⟩
          exact ⟨List.mem_cons_of_mem a hx, hs⟩
        · rintro ⟨hx, hs⟩
          rcases List.mem_cons.mp hx with rfl | hx'
          · exact absurd hm hs
          · exact ⟨hx', hs⟩
      · rw [show firstNew seen (a :: es) = a :: firstNew (a :: seen) es from by
          simp only [firstNew, if_neg hm]]
        constructor
        · intro hx
          rcases List.mem_cons.mp hx with rfl | hx'
          · exact ⟨List.mem_cons_self x es, hm⟩
          · obtain ⟨h1, h2⟩ := (ih (a :: seen) x).mp hx'
            exact ⟨List.mem_cons_of_mem a h1, fun hs => h2 (List.mem_cons_of_mem a hs)⟩
        · rintro ⟨hx, hs⟩
          by_cases hxa : x = a
          · subst hxa
            exact List.mem_cons_self x _
          · rcases List.mem_cons.mp hx with rfl | hx'
            · exact absurd rfl hxa
            · refine List.mem_cons_of_mem a ((ih (a :: seen) x).mpr ⟨hx', ?_⟩)
              intro hmem
              rcases List.mem_cons.mp hmem with h' | h'
              · exact hxa h'
              · exact hs h'

theorem keys_map_pair (K : List String) (f : String → Nat) :
    (K.map (fun e => (e, f e))).map Prod.fst = K := by
  induction K with
  | nil => rfl
  | cons e K ih => simp [ih]

theorem bumpCount_map_mem (K : List String) (f : String → Nat) (a : String)
    (hm : a ∈ K) :
    bumpCount (K.map (fun e => (e, f e))) a =
      K.map (fun e => (e, if e = a then f e + 1 else f e)) := by
  unfold bumpCount
  rw [if_pos ((mem_keys_iff_any a (K.map (fun e => (e, f e)))).mpr
    (by rw [keys_map_pair]; exact hm))]
  rw [List.map_map]
  apply List.map_congr_left
  intro e _
  by_cases hea : e = a <;> simp [Function.comp, hea]

theorem bumpCount_map_not_mem (K : List String) (f : String → Nat) (a : String)
    (hm : a ∉ K) :
    bumpCount (K.map (fun e => (e, f e))) a =
      (K ++ [a]).map (fun e => (e, if e = a then 1 else f e)) := by
  unfold bumpCount
  rw [if_neg (fun hc => hm (by
    rw [← keys_map_pair K f]
    exact (mem_keys_iff_any a (K.map (fun e => (e, f e)))).mp hc))]
  rw [List.map_append]
  congr 1
  · apply List.map_congr_left
    intro e he
    have hea : ¬ e = a := fun h' => hm (h' ▸ he)
    simp [hea]
  · simp

theorem foldl_bumpCount : ∀ (es K : List String) (f : String → Nat), K.Nodup →
    es.foldl bumpCount (K.map (fun e => (e, f e))) =
      (K ++ firstNew K es).map
        (fun e => (e, (if e ∈ K then f e else 0) + es.count e)) := by
  intro es
  induction es with
  | nil =>
      intro K f _
      rw [List.foldl_nil]
      simp only [firstNew, List.append_nil]
      symm
      apply List.map_congr_left
      intro e he
      simp [he, List.count_nil]
  | cons a es ih =>
      intro K f hK
      rw [List.foldl_cons]
      by_cases hm : a ∈ K
      · rw [bumpCount_map_mem K f a hm, ih K _ hK]
        have hfn : firstNew K (a :: es) = firstNew K es := by
          simp only [firstNew, if_pos hm]
        rw [hfn]
        apply List.map_congr_left
        intro e he
        rcases List.mem_append.mp he with heK | heN
        · rw [if_pos heK, if_pos heK]
          by_cases hea : e = a
          · subst hea
            rw [if_pos rfl, List.count_cons, beq_self_eq_true]
            simp only [if_true]
            congr 1
            omega
          · have hae : (a == e) = false := by simp [Ne.symm hea]
            rw [if_neg hea, List.count_cons, hae]
            simp
        · have heNK : e ∉ K := (firstNew_forall_nodup es K).1 e heN
          have hea : e ≠ a := fun h' => heNK (h' ▸ hm)
          have hae : (a == e) = false := by simp [Ne.symm hea]
          rw [if_neg heNK, if_neg heNK, List.count_cons, hae]
          simp
      · rw [bumpCount_map_not_mem K f a hm]
        have hKa : (K ++ [a]).Nodup := by simp [List.nodup_append, hK, hm]
        rw [ih (K ++ [a]) _ hKa]
        rw [firstNew_congr es (K ++ [a]) (a :: K)
          (fun x => by simp [List.mem_append, List.mem_cons, or_comm])]
        have hfn : firstNew K (a :: es) = a :: firstNew (a :: K) es := by
          simp only [firstNew, if_neg hm]
        rw [hfn, List.append_assoc, List.singleton_append]
        apply List.map_congr_left
        intro e he
        rcases List.mem_append.mp he with heK | heN
        · have hea : e ≠ a := fun h' => hm (h' ▸ heK)
          have hae : (a == e) = false := by simp [Ne.symm hea]
          rw [if_pos (List.mem_append.mpr (Or.inl heK)), if_neg hea, if_pos heK,
            List.count_cons, hae]
          simp
        · rcases List.mem_cons.mp heN with rfl | heN'
          · rw [if_pos (by simp), if_pos rfl, if_neg hm, List.count_cons,
              beq_self_eq_true]
            simp only [if_true]
            congr 1
            omega
          · have hin : e ∉ a :: K := (firstNew_forall_nodup es (a :: K)).1 e heN'
            have heK' : e ∉ K := fun h' => hin (List.mem_cons_of_mem a h')
            have hea : e ≠ a := fun h' => hin (by rw [h']; exact List.mem_cons_self a K)
            have hae : (a == e) = false := by simp [Ne.symm hea]
            rw [if_neg (by simp [heK', hea] : e ∉ K ++ [a]), if_neg heK',
              List.count_cons, hae]
            simp

theorem countAll_characterization (es : List String) :
    countAll es = (firstNew [] es).map (fun e => (e, es.count e)) := by
  have h := foldl_bumpCount es [] (fun _ => 0) List.nodup_nil
  simpa [countAll] using h

end ConvertSpec

namespace Convert

open ConvertSpec

theorem isEmpty_map {α β : Type} (f : α → β) (l : List α) :
    (l.map f).isEmpty = l.isEmpty := by
  cases l <;> rfl

theorem dup_report_lines (es : List String) :
    ((countAll es).filter (fun p => 1 < p.2)).map (fun p => dupMsg p.1 p.2) =
      ((firstNew [] es).filter (fun e => 1 < es.count e)).map
        (fun e => dupMsg e (es.count e)) := by
  rw [countAll_characterization es, List.filter_map, List.map_map]
  rfl

/-- C6: the report-only duplicate checker counts occurrences of each
domain across all categories combined; its output is exactly one report
line (with the count) per distinct domain whose combined count exceeds 1,
in first-occurrence order, and is the single no-duplicates message when
there is none; and dispatching the `duplicates` subcommand exits 0 and
writes no files (the Document is read-only throughout). -/
theorem duplicates_report_correct (doc : Doc) :
    (duplicatesReport doc =
       (if ((firstNew [] (doc.flatMap (fun p => p.2))).filter
              (fun e => 1 < (doc.flatMap (fun p => p.2)).count e)).isEmpty
        then [noDupMsg]
        else ((firstNew [] (doc.flatMap (fun p => p.2))).filter
              (fun e => 1 < (doc.flatMap (fun p => p.2)).count e)).map
            (fun e => dupMsg e ((doc.flatMap (fun p => p.2)).count e))))
    ∧ (∀ e ∈ doc.flatMap (fun p => p.2),
        1 < (doc.flatMap (fun p => p.2)).count e →
        dupMsg e ((doc.flatMap (fun p => p.2)).count e) ∈ duplicatesReport doc)
    ∧ ((∀ e ∈ doc.flatMap (fun p => p.2), (doc.flatMap (fun p => p.2)).count e ≤ 1) →
        duplicatesReport doc = [noDupMsg])
    ∧ (∀ lines ts, read lines = .ok doc →
        mainModel (some "duplicates") lines ts = (0, [])) := by
  have h1 : duplicatesReport doc =
      (if ((firstNew [] (doc.flatMap (fun p => p.2))).filter
             (fun e => 1 < (doc.flatMap (fun p => p.2)).count e)).isEmpty
       then [noDupMsg]
       else ((firstNew [] (doc.flatMap (fun p => p.2))).filter
             (fun e => 1 < (doc.flatMap (fun p => p.2)).count e)).map
           (fun e => dupMsg e ((doc.flatMap (fun p => p.2)).count e))) := by
    simp only [duplicatesReport]
    rw [dup_report_lines (doc.flatMap (fun p => p.2)), isEmpty_map]
  refine ⟨h1, ?_, ?_, ?_⟩
  · intro e hmem hcount
    have hmf : e ∈ (firstNew [] (doc.flatMap (fun p => p.2))).filter
        (fun e => 1 < (doc.flatMap (fun p => p.2)).count e) := by
      rw [List.mem_filter]
      exact ⟨(mem_firstNew _ [] e).mpr ⟨hmem, List.not_mem_nil e⟩, by simpa using hcount⟩
    have hne : ((firstNew [] (doc.flatMap (fun p => p.2))).filter
        (fun e => 1 < (doc.flatMap (fun p => p.2)).count e)).isEmpty = false := by
      cases hie : ((firstNew [] (doc.flatMap (fun p => p.2))).filter
          (fun e => 1 < (doc.flatMap (fun p => p.2)).count e)).isEmpty
      · rfl
      · rw [List.isEmpty_iff] at hie
        rw [hie] at hmf
        exact absurd hmf (List.not_mem_nil e)
    rw [h1, hne]
    simp only [Bool.false_eq_true, if_false]
    exact List.mem_map.mpr ⟨e, hmf, rfl⟩
  · intro hall
    rw [h1]
    have hnil : (firstNew [] (doc.flatMap (fun p => p.2))).filter
        (fun e => 1 < (doc.flatMap (fun p => p.2)).count e) = [] := by
      rw [List.filter_eq_nil_iff]
      intro e hmem
      have := hall e ((mem_firstNew _ [] e).mp hmem).1
      simpa using Nat.not_lt.mpr this
    rw [hnil]
    rfl
  · intro lines ts hread
    simp only [mainModel]
    rw [if_pos (by decide), hread]
    rfl

/-- Witness for C6: a domain repeated under two different categories is
reported with count 2, and the `duplicates` subcommand writes no files. -/
theorem duplicates_report_correct_witness :
    duplicatesReport [("A", ["a.com"]), ("B", ["a.com", "b.com"])] =
      ["Domain a.com found 2 times, please remove duplicate domains."]
    ∧ mainModel (some "duplicates") ["# A", "a.com", "# B", "a.com", "b.com"]
        "2025-01-01" = (0, []) := by
  constructor
  · exact (duplicates_report_correct [("A", ["a.com"]), ("B", ["a.com", "b.com"])]).1.trans
      (by rfl)
  · exact (duplicates_report_correct [("A", ["a.com"]), ("B", ["a.com", "b.com"])]).2.2.2
      ["# A", "a.com", "# B", "a.com", "b.com"] "2025-01-01" rfl

end Convert

namespace Tests

open PyStr Convert ConvertSpec

theorem check_duplicates_error_iff (lines : List String) :
    (∃ e, check_duplicates lines = .error e) ↔
      ∃ d ∈ (lines.map pyStrip).filter (fun l => l ≠ ""),
        1 < ((lines.map pyStrip).filter (fun l => l ≠ "")).count d := by
  have hchar := countAll_characterization ((lines.map pyStrip).filter (fun l => l ≠ ""))
  cases hf : (Convert.countAll ((lines.map pyStrip).filter (fun l => l ≠ ""))).find?
      (fun p => 1 < p.2) with
  | some p =>
      constructor
      · intro _
        have hpmem : p ∈ Convert.countAll ((lines.map pyStrip).filter (fun l => l ≠ "")) :=
          List.mem_of_find?_eq_some hf
        have hp2 : 1 < p.2 := by simpa using List.find?_some hf
        rw [hchar] at hpmem
        obtain ⟨e, hemem, hep⟩ := List.mem_map.mp hpmem
        refine ⟨e, ((mem_firstNew _ [] e).mp hemem).1, ?_⟩
        have : p.2 = ((lines.map pyStrip).filter (fun l => l ≠ "")).count e := by
          rw [← hep]
        rw [← this]
        exact hp2
      · intro _
        refine ⟨p, ?_⟩
        simp only [check_duplicates]
        rw [hf]
  | none =>
      constructor
      · rintro ⟨e, he⟩
        exfalso
        have hok : check_duplicates lines = .ok () := by
          simp only [check_duplicates]
          rw [hf]
        rw [hok] at he
        cases he
      · rintro ⟨d, hd, hc⟩
        exfalso
        have hmem : ((d, ((lines.map pyStrip).filter (fun l => l ≠ "")).count d)) ∈
            Convert.countAll ((lines.map pyStrip).filter (fun l => l ≠ "")) := by
          rw [hchar]
          exact List.mem_map.mpr ⟨d, (mem_firstNew _ [] d).mpr ⟨hd, List.not_mem_nil d⟩, rfl⟩
        have := List.find?_eq_none.mp hf _ hmem
        simp at this
        exact absurd hc (by simpa using this)

theorem check_regex_go_error_iff (forbidden : List String) : ∀ (ls : List String) (n : Nat),
    (∃ e, check_regex_go forbidden n ls = .error e) ↔
      ∃ l ∈ ls, pyStrip l ≠ "" ∧ ∃ f ∈ forbidden, f.toList <:+: (pyStrip l).toList := by
  intro ls
  induction ls with
  | nil =>
      intro n
      simp [check_regex_go]
  | cons l ls ih =>
      intro n
      by_cases hd : pyStrip l = ""
      · have hgo : check_regex_go forbidden n (l :: ls) =
            check_regex_go forbidden (n + 1) ls := by
          simp only [check_regex_go]
          rw [if_neg (not_not_intro hd)]
        rw [hgo, ih (n + 1)]
        constructor
        · rintro ⟨l', hl', hcond⟩
          exact ⟨l', List.mem_cons_of_mem l hl', hcond⟩
        · rintro ⟨l', hl', hne, hf⟩
          rcases List.mem_cons.mp hl' with rfl | hl''
          · exact absurd hd hne
          · exact ⟨l', hl'', hne, hf⟩
      · cases hf : forbidden.find? (fun f => decide (f.toList <:+: (pyStrip l).toList)) with
        | some f0 =>
            have hgo : check_regex_go forbidden n (l :: ls) =
                .error (n, f0, pyStrip l) := by
              simp only [check_regex_go]
              rw [if_pos hd, hf]
            rw [hgo]
            constructor
            · intro _
              refine ⟨l, List.mem_cons_self l ls, hd, f0, List.mem_of_find?_eq_some hf, ?_⟩
              simpa using List.find?_some hf
            · intro _
              exact ⟨(n, f0, pyStrip l), rfl⟩
        | none =>
            have hgo : check_regex_go forbidden n (l :: ls) =
                check_regex_go forbidden (n + 1) ls := by
              simp only [check_regex_go]
              rw [if_pos hd, hf]
            rw [hgo, ih (n + 1)]
            constructor
            · rintro ⟨l', hl', hcond⟩
              exact ⟨l', List.mem_cons_of_mem l hl', hcond⟩
            · rintro ⟨l', hl', hne, f, hfm, hinf⟩
              rcases List.mem_cons.mp hl' with rfl | hl''
              · exfalso
                have hnone := List.find?_eq_none.mp hf f hfm
                simp at hnone
                exact hnone hinf
              · exact ⟨l', hl'', hne, f, hfm, hinf⟩

theorem check_regex_go_error_spec (forbidden : List String) :
    ∀ (ls : List String) (n m : Nat) (f d : String),
    check_regex_go forbidden n ls = .error (m, f, d) →
    n ≤ m ∧ m - n < ls.length ∧ pyStrip (ls.getD (m - n) "") = d ∧ d ≠ ""
      ∧ f ∈ forbidden ∧ f.toList <:+: d.toList := by
  intro ls
  induction ls with
  | nil => intro n m f d h; simp [check_regex_go] at h
  | cons l ls ih =>
      intro n m f d h
      by_cases hd : pyStrip l = ""
      · have hgo : check_regex_go forbidden n (l :: ls) =
            check_regex_go forbidden (n + 1) ls := by
          simp only [check_regex_go]
          rw [if_neg (not_not_intro hd)]
        rw [hgo] at h
        obtain ⟨h1, h2, h3, h4, h5, h6⟩ := ih (n + 1) m f d h
        refine ⟨by omega, ?_, ?_, h4, h5, h6⟩
        · simp only [List.length_cons]
          omega
        · have hsub : m - n = (m - (n + 1)) + 1 := by omega
          rw [hsub, List.getD_cons_succ]
          exact h3
      · cases hf : forbidden.find? (fun f => decide (f.toList <:+: (pyStrip l).toList)) with
        | some f0 =>
            have hgo : check_regex_go forbidden n (l :: ls) =
                .error (n, f0, pyStrip l) := by
              simp only [check_regex_go]
              rw [if_pos hd, hf]
            rw [hgo] at h
            injection h with hp
            rw [Prod.mk.injEq, Prod.mk.injEq] at hp
            obtain ⟨hn, hf0, hdl⟩ := hp
            subst hn
            subst hf0
            subst hdl
            refine ⟨Nat.le_refl n, ?_, ?_, hd, List.mem_of_find?_eq_some hf, ?_⟩
            · simp only [Nat.sub_self, List.length_cons]
              omega
            · rw [Nat.sub_self, List.getD_cons_zero]
            · simpa using List.find?_some hf
        | none =>
            have hgo : check_regex_go forbidden n (l :: ls) =
                check_regex_go forbidden (n + 1) ls := by
              simp only [check_regex_go]
              rw [if_pos hd, hf]
            rw [hgo] at h
            obtain ⟨h1, h2, h3, h4, h5, h6⟩ := ih (n + 1) m f d h
            refine ⟨by omega, ?_, ?_, h4, h5, h6⟩
            · simp only [List.length_cons]
              omega
            · have hsub : m - n = (m - (n + 1)) + 1 := by omega
              rw [hsub, List.getD_cons_succ]
              exact h3

/-- C7: the strict CI-style checker fails if and only if some stripped
non-empty line occurs more than once in the file; its forbidden-pattern
check fails if and only if some non-blank stripped line contains one of
the configured forbidden substrings; and a forbidden-pattern failure
reports the one-based number of an offending line together with the
matching forbidden substring. -/
theorem strict_checks_iff (lines forbidden : List String) :
    ((∃ e, check_duplicates lines = .error e) ↔
      ∃ d ∈ (lines.map pyStrip).filter (fun l => l ≠ ""),
        1 < ((lines.map pyStrip).filter (fun l => l ≠ "")).count d)
    ∧ ((∃ e, check_regex_domains lines forbidden = .error e) ↔
      ∃ l ∈ lines, pyStrip l ≠ "" ∧ ∃ f ∈ forbidden,
        f.toList <:+: (pyStrip l).toList)
    ∧ (∀ m f d, check_regex_domains lines forbidden = .error (m, f, d) →
        1 ≤ m ∧ m - 1 < lines.length ∧ pyStrip (lines.getD (m - 1) "") = d
          ∧ d ≠ "" ∧ f ∈ forbidden ∧ f.toList <:+: d.toList) :=
  ⟨check_duplicates_error_iff lines,
   check_regex_go_error_iff forbidden lines 1,
   fun m f d h => check_regex_go_error_spec forbidden lines 1 m f d h⟩

/-- Witness for C7: a file repeating `a.com` fails the duplicate check,
and a file containing `a.l.google.com` on line 2 fails the forbidden
pattern check with that line number. -/
theorem strict_checks_iff_witness :
    (∃ e, check_duplicates ["a.com", "a.com"] = .error e)
    ∧ (1 ≤ 2 ∧ 2 - 1 < (["ok.com", "a.l.google.com"] : List String).length
        ∧ pyStrip ((["ok.com", "a.l.google.com"] : List String).getD (2 - 1) "") =
            "a.l.google.com"
        ∧ ("a.l.google.com" : String) ≠ "" ∧ ".l.google.com" ∈ forbiddenDomains
        ∧ ".l.google.com".toList <:+: "a.l.google.com".toList) := by
  constructor
  · exact (strict_checks_iff ["a.com", "a.com"] forbiddenDomains).1.mpr
      ⟨"a.com", by decide, by decide⟩
  · exact (strict_checks_iff ["ok.com", "a.l.google.com"] forbiddenDomains).2.2
      2 ".l.google.com" "a.l.google.com" rfl

end Tests

namespace DnsCheck

open PyStr

/-- C8: the NS check returns the remove outcome (`True`) exactly on
NXDOMAIN; every other non-answer outcome — no nameservers, no answer,
timeout, DNS exception, unexpected error — yields the conservative
retain outcome with a logged diagnostic, never removal. -/
theorem ns_check_conservative :
    (∀ r : DnsOutcome, (check_domain r).1 = true ↔ r = .nxdomain)
    ∧ (∀ r : DnsOutcome, r ≠ .answer → r ≠ .nxdomain →
        check_domain r = (false, true)) := by
  constructor
  · intro r
    cases r <;> simp [check_domain]
  · intro r h1 h2
    cases r
    case answer => exact absurd rfl h1
    case nxdomain => exact absurd rfl h2
    all_goals rfl

/-- Witness for C8 at the timeout outcome. -/
theorem ns_check_conservative_witness :
    DnsOutcome.timedOut ≠ DnsOutcome.answer
    ∧ DnsOutcome.timedOut ≠ DnsOutcome.nxdomain
    ∧ check_domain .timedOut = (false, true) :=
  ⟨by decide, by decide, ns_check_conservative.2 .timedOut (by decide) (by decide)⟩

end DnsCheck

namespace WhoisCheck

open ConvertSpec

theorem whoisMainLoop_spec (oracle : String → Nat → WhoisRaw) : ∀ ds : List String,
    (whoisMainLoop oracle ds).1 = ds.map (fun d => (d, 0))
    ∧ (whoisMainLoop oracle ds).2.2 =
        ds.filter (fun d => isTransient (is_registered (oracle d 0)))
    ∧ (whoisMainLoop oracle ds).2.1 =
        (ds.filter (fun d => !(isTransient (is_registered (oracle d 0))))).map
          (fun d => (d, is_registered (oracle d 0))) := by
  intro ds
  induction ds with
  | nil => exact ⟨rfl, rfl, rfl⟩
  | cons d ds ih =>
      obtain ⟨ih1, ih2, ih3⟩ := ih
      cases hr : is_registered (oracle d 0) with
      | transientFail =>
          refine ⟨?_, ?_, ?_⟩ <;>
            simp [whoisMainLoop, hr, ih1, ih2, ih3, isTransient, List.filter_cons]
      | registered dn org ns =>
          refine ⟨?_, ?_, ?_⟩ <;>
            simp [whoisMainLoop, hr, ih1, ih2, ih3, isTransient, List.filter_cons]
      | notRegistered =>
          refine ⟨?_, ?_, ?_⟩ <;>
            simp [whoisMainLoop, hr, ih1, ih2, ih3, isTransient, List.filter_cons]

theorem count_pair_map_zero (l : List String) (d : String) :
    ((l.map (fun x => (x, 0))).count ((d, 1) : String × Nat)) = 0 := by
  rw [List.count_eq_zero]
  intro hmem
  obtain ⟨x, _, hx⟩ := List.mem_map.mp hmem
  have h01 : (0 : Nat) = 1 := congrArg Prod.snd hx
  exact absurd h01 (by decide)

theorem count_pair_map_one (l : List String) (d : String) :
    ((l.map (fun x => (x, 1))).count ((d, 1) : String × Nat)) = l.count d := by
  induction l with
  | nil => rfl
  | cons x l ih =>
      simp only [List.map_cons, List.count_cons, ih]
      congr 1
      by_cases hxd : x = d <;> simp [hxd]

/-- C9: the transient-failure signal arises exactly from connection
refused and timeout; the trace of WHOIS lookups over a run is the main
pass (attempt 0, one lookup per deduplicated domain, in order) followed
by exactly one deferred retry pass (attempt 1) over just the transient
subset; each domain is retried exactly once if its first lookup was
transient and never otherwise; and every non-transient failure is
reported as not-registered during the main pass. -/
theorem retry_discipline (oracle : String → Nat → WhoisRaw) (ds : List String) :
    (∀ r, is_registered r = .transientFail ↔ (r = .connRefused ∨ r = .timedOut))
    ∧ (whoisRun oracle ds).1 =
        (firstNew [] ds).map (fun d => (d, 0)) ++
          ((firstNew [] ds).filter
              (fun d => isTransient (is_registered (oracle d 0)))).map
            (fun d => (d, 1))
    ∧ (∀ d, ((whoisRun oracle ds).1.count ((d, 1) : String × Nat)) =
        if d ∈ firstNew [] ds ∧ isTransient (is_registered (oracle d 0)) = true
        then 1 else 0)
    ∧ (∀ d ∈ firstNew [] ds, is_registered (oracle d 0) = .notRegistered →
        (d, WhoisRes.notRegistered) ∈ (whoisRun oracle ds).2) := by
  obtain ⟨hs1, hs2, hs3⟩ := whoisMainLoop_spec oracle (firstNew [] ds)
  have htrace : (whoisRun oracle ds).1 =
      (firstNew [] ds).map (fun d => (d, 0)) ++
        ((firstNew [] ds).filter
            (fun d => isTransient (is_registered (oracle d 0)))).map
          (fun d => (d, 1)) := by
    simp only [whoisRun]
    rw [hs1, hs2]
  refine ⟨?_, htrace, ?_, ?_⟩
  · intro r
    cases r with
    | found dn org ns => by_cases hdn : dn = [] <;> simp [is_registered, hdn]
    | pywhoisError => simp [is_registered]
    | commandFailed => simp [is_registered]
    | unknownTld => simp [is_registered]
    | parseFailed => simp [is_registered]
    | dateFormatErr => simp [is_registered]
    | connRefused => simp [is_registered]
    | timedOut => simp [is_registered]
    | otherExc => simp [is_registered]
  · intro d
    rw [htrace, List.count_append, count_pair_map_zero, count_pair_map_one]
    have hnd : ((firstNew [] ds).filter
        (fun d => isTransient (is_registered (oracle d 0)))).Nodup :=
      List.Nodup.filter _ (firstNew_forall_nodup ds []).2
    by_cases hc : d ∈ firstNew [] ds ∧ isTransient (is_registered (oracle d 0)) = true
    · rw [if_pos hc]
      simp only [Nat.zero_add]
      exact List.count_eq_one_of_mem hnd (List.mem_filter.mpr ⟨hc.1, hc.2⟩)
    · rw [if_neg hc]
      simp only [Nat.zero_add]
      exact List.count_eq_zero_of_not_mem
        (fun hmem => hc (by
          obtain ⟨hm, hp⟩ := List.mem_filter.mp hmem
          exact ⟨hm, hp⟩))
  · intro d hd hres
    have hmem : (d, WhoisRes.notRegistered) ∈
        (whoisMainLoop oracle (firstNew [] ds)).2.1 := by
      rw [hs3]
      refine List.mem_map.mpr ⟨d, ?_, by rw [hres]⟩
      refine List.mem_filter.mpr ⟨hd, ?_⟩
      rw [hres]
      rfl
    simp only [whoisRun]
    exact List.mem_append.mpr (Or.inl hmem)

/-- Witness for C9: with a WHOIS oracle where `a.com` is refused on the
first attempt only and every other lookup fails non-transiently, the run
looks up the deduplicated domains in order, retries exactly `a.com` once
after the main pass, and reports `b.com` as not-registered in the main
pass. -/
theorem retry_discipline_witness :
    (whoisRun (fun d k => if d = "a.com" ∧ k = 0 then .connRefused else .pywhoisError)
        ["a.com", "b.com", "a.com"]).1 =
      [("a.com", 0), ("b.com", 0), ("a.com", 1)]
    ∧ ("b.com", WhoisRes.notRegistered) ∈
        (whoisRun (fun d k => if d = "a.com" ∧ k = 0 then .connRefused else .pywhoisError)
          ["a.com", "b.com", "a.com"]).2 := by
  constructor
  · exact (retry_discipline
      (fun d k => if d = "a.com" ∧ k = 0 then .connRefused else .pywhoisError)
      ["a.com", "b.com", "a.com"]).2.1.trans (by rfl)
  · exact (retry_discipline
      (fun d k => if d = "a.com" ∧ k = 0 then .connRefused else .pywhoisError)
      ["a.com", "b.com", "a.com"]).2.2.2 "b.com" (by decide) (by rfl)

end WhoisCheck

namespace DnsCheck

open PyStr

/-- C10: the NS-check rewrite produces exactly the original lines in
order, each whitespace-stripped and re-terminated with a newline, with
precisely the non-blank non-comment stripped lines classified as having
no NS records (NXDOMAIN) removed; comment lines, blank lines, and all
retained domains are preserved. -/
theorem rewrite_characterization (dns : String → DnsOutcome) (lines : List String) :
    rewriteLines dns lines =
      ((lines.map pyStrip).filter (fun s => !(removedLine dns s))).map
        (fun s => s ++ "\n")
    ∧ (∀ s, removedLine dns s = true ↔
        (s ≠ "" ∧ startsWithChar '#' s = false ∧ dns s = .nxdomain)) := by
  constructor
  · induction lines with
    | nil => rfl
    | cons l ls ih =>
        rw [List.map_cons, List.filter_cons]
        by_cases h1 : pyStrip l = ""
        · have hrem : removedLine dns (pyStrip l) = false := by
            simp [removedLine, h1]
          have hrew : rewriteLines dns (l :: ls) =
              (pyStrip l ++ "\n") :: rewriteLines dns ls := by
            simp only [rewriteLines]
            rw [if_neg (fun hcon => hcon.1 h1)]
          rw [hrew, hrem]
          simp only [Bool.not_false, if_true]
          rw [List.map_cons, ih]
        · by_cases h2 : startsWithChar '#' (pyStrip l) = true
          · have hrem : removedLine dns (pyStrip l) = false := by
              simp [removedLine, h1, h2]
            have hrew : rewriteLines dns (l :: ls) =
                (pyStrip l ++ "\n") :: rewriteLines dns ls := by
              simp only [rewriteLines]
              rw [if_neg (fun hcon => absurd (h2.symm.trans hcon.2) (by decide))]
            rw [hrew, hrem]
            simp only [Bool.not_false, if_true]
            rw [List.map_cons, ih]
          · have h2' : startsWithChar '#' (pyStrip l) = false := by
              cases hx : startsWithChar '#' (pyStrip l)
              · rfl
              · exact absurd hx h2
            by_cases h3 : (check_domain (dns (pyStrip l))).1 = true
            · have hrem : removedLine dns (pyStrip l) = true := by
                simp [removedLine, h1, h2', h3]
              have hrew : rewriteLines dns (l :: ls) = rewriteLines dns ls := by
                simp only [rewriteLines]
                rw [if_pos ⟨h1, h2'⟩, if_pos h3]
              rw [hrew, hrem]
              simp only [Bool.not_true, Bool.false_eq_true, if_false]
              exact ih
            · have h3' : (check_domain (dns (pyStrip l))).1 = false := by
                cases hx : (check_domain (dns (pyStrip l))).1
                · rfl
                · exact absurd hx h3
              have hrem : removedLine dns (pyStrip l) = false := by
                simp [removedLine, h1, h2', h3']
              have hrew : rewriteLines dns (l :: ls) =
                  (pyStrip l ++ "\n") :: rewriteLines dns ls := by
                simp only [rewriteLines]
                rw [if_pos ⟨h1, h2'⟩, if_neg (by rw [h3']; exact Bool.false_ne_true)]
              rw [hrew, hrem]
              simp only [Bool.not_false, if_true]
              rw [List.map_cons, ih]
  · intro s
    constructor
    · intro h
      simp only [removedLine, Bool.and_eq_true, Bool.not_eq_true',
        beq_eq_false_iff_ne] at h
      obtain ⟨⟨ha, hb⟩, hc⟩ := h
      refine ⟨ha, hb, ?_⟩
      cases hdns : dns s
      all_goals rw [hdns] at hc
      all_goals simp [check_domain] at hc
    · rintro ⟨h1, h2, h3⟩
      simp [removedLine, h1, h2, h3, check_domain]

/-- Witness for C10 at a concrete file and resolver oracle: the comment,
the blank line, and the live domains survive (stripped, newline
re-appended), while the NXDOMAIN domain is removed. -/
theorem rewrite_characterization_witness :
    rewriteLines (fun d => if d = "dead.com" then .nxdomain else .answer)
        ["# Google", "alive.com", " dead.com ", "", "alive2.com"] =
      ["# Google\n", "alive.com\n", "\n", "alive2.com\n"]
    ∧ removedLine (fun d => if d = "dead.com" then .nxdomain else .answer) "dead.com" = true := by
  constructor
  · exact (rewrite_characterization
      (fun d => if d = "dead.com" then .nxdomain else .answer)
      ["# Google", "alive.com", " dead.com ", "", "alive2.com"]).1.trans (by rfl)
  · exact ((rewrite_characterization
      (fun d => if d = "dead.com" then .nxdomain else .answer) []).2 "dead.com").mpr
      ⟨by decide, by rfl, by rfl⟩

end DnsCheck
